import Mathlib

/-!
Shallow embedding of the `yuzubb/test-live` HLS relay server.

Strings are modelled as `List Char` (`Str`).  The two core components are
embedded from the source:

* `rewriteHlsManifest` — the manifest rewriting engine of `src/server.js`
  (identical in `src/unnamed/part_000`): split on `'\n'`, rewrite each
  non-blank line that does not start with `'#'` and is not already absolute
  by resolving its trimmed content against the base directory URL, join.
* `getHlsUrlFromInvidious` — the provider-fallback resolver of
  `src/server.js`: iterate the static instance list in order, query each,
  short-circuit on the first usable stream URL, `none` when all fail.
  Network effects are modelled by an environment `env : Str → FetchResult`
  mapping each query URL to that attempt's outcome.
* `tryInstanceResolving` / `getHlsUrlFromInvidiousP0` — the variant resolver
  of `src/unnamed/part_000`, which additionally resolves a non-`http`
  extracted URL against the instance base URL.
* `replaceDomain` — the host-substitution function of `src/unnamed/part_000`.

Node's library functions `url.resolve` and `new URL(...)` are not part of
the repository; they are modelled from the spec (see `urlResolve` and
`parseBase`).
-/

namespace TestLive

/-- Strings are modelled as lists of characters. -/
abbrev Str := List Char

/-- JS whitespace characters relevant to `String.prototype.trim` (ASCII part). -/
def isWs (c : Char) : Bool :=
  c == ' ' || c == '\t' || c == '\n' || c == '\r' || c == '\x0b' || c == '\x0c'

/-- Remove trailing whitespace (the right half of JS `trim`). -/
def rstrip : Str → Str
  | [] => []
  | c :: cs =>
    match rstrip cs with
    | [] => if isWs c then [] else [c]
    | d :: ds => c :: d :: ds

/-- JS `String.prototype.trim`: drop leading and trailing whitespace. -/
def trimL (s : Str) : Str := rstrip (s.dropWhile isWs)

/-- JS `s.startsWith(p)`: `startsWithL s p` is true when `p` is an initial
segment of `s`. -/
def startsWithL : Str → Str → Bool
  | _, [] => true
  | [], _ :: _ => false
  | c :: cs, p :: ps => c == p && startsWithL cs ps

/-- JS `s.includes(p)`: substring test. -/
def containsL : Str → Str → Bool
  | [], pat => startsWithL [] pat
  | c :: cs, pat => startsWithL (c :: cs) pat || containsL cs pat

/-- JS `s.toLowerCase()` (character-wise). -/
def lowerL (s : Str) : Str := s.map Char.toLower

/-- JS `baseUrl.substring(0, baseUrl.lastIndexOf('/') + 1)`: everything up to
and including the last `'/'`, or `[]` when there is no `'/'`. -/
def baseOf (s : Str) : Str :=
  (s.reverse.dropWhile (fun c => !(c == '/'))).reverse

/-- JS `manifestContent.split('\n')`. Always returns a non-empty list. -/
def splitNL : Str → List Str
  | [] => [[]]
  | c :: cs =>
    if c = '\n' then [] :: splitNL cs
    else
      match splitNL cs with
      | [] => [[c]]
      | l :: ls => (c :: l) :: ls

/-- JS `lines.join('\n')`. -/
def joinNL : List Str → Str
  | [] => []
  | [l] => l
  | l :: l2 :: ls => l ++ '\n' :: joinNL (l2 :: ls)

/-- Characters allowed in a URI scheme (RFC 3986 `scheme` production,
after the initial letter). -/
def isSchemeChar (c : Char) : Bool :=
  c.isAlphanum || c == '+' || c == '-' || c == '.'

/-- Split `s` as `scheme ++ ':' ++ rest` when `s` starts with a valid URI
scheme followed by a colon; `none` otherwise. -/
def schemeSplit (s : Str) : Option (Str × Str) :=
  match s.takeWhile isSchemeChar, s.dropWhile isSchemeChar with
  | c :: pre, d :: rest =>
    if c.isAlpha ∧ d = ':' then some (c :: pre, rest) else none
  | _, _ => none

/-- Does `s` begin with a valid URI scheme followed by `':'`? -/
def hasScheme (s : Str) : Bool := (schemeSplit s).isSome

/-- Characters that may appear in the authority component (anything up to the
first `'/'`, `'?'` or `'#'`). -/
def isAuthChar (c : Char) : Bool := !(c == '/' || c == '?' || c == '#')

/-- Modelled from the spec: the URL parser of Node's `url` module / the WHATWG
`URL` class, neither of which is repository code.  Splits an absolute URL into
scheme, authority and the remainder (path, query and fragment).  Parsing fails
on inputs without a `scheme://` prefix, and on inputs containing whitespace
(malformed per the spec's "on parse failure" clauses). -/
def parseBase (b : Str) : Option (Str × Str × Str) :=
  if b.any isWs then none
  else
    match schemeSplit b with
    | some (sch, rest) =>
      match rest with
      | d1 :: d2 :: after =>
        if d1 = '/' ∧ d2 = '/' then
          some (sch, after.takeWhile isAuthChar, after.dropWhile isAuthChar)
        else none
      | _ => none
    | none => none

/-- RFC 3986 path merge: the base path up to its last `'/'` (or a single
`'/'` when it has none) followed by the reference. -/
def mergeSlash (path ref : Str) : Str :=
  match baseOf path with
  | [] => '/' :: ref
  | d :: ds => (d :: ds) ++ ref

/-- The literal `"://"`. -/
def SCHEME_SEP : Str := [':', '/', '/']

/-- Modelled from the spec: Node's `url.resolve` (library code, not under
`src/`).  The spec, 4.4: references are "resolved against the base directory
URL per standard relative-URL resolution rules (as for HTML `<base>`
resolution)" and "if resolution fails for any reason ... the original line is
preserved unchanged".  A reference carrying its own scheme is returned as is;
otherwise the base must parse as an absolute URL (else resolution fails) and
the reference is grafted onto it: protocol-relative references keep only the
base's scheme, rooted references keep scheme and authority, and all other
references are merged onto the base's path. -/
def urlResolve (base ref : Str) : Option Str :=
  if hasScheme ref then some ref
  else
    match parseBase base with
    | none => none
    | some (sch, auth, path) =>
      if startsWithL ref ['/', '/'] then some (sch ++ ':' :: ref)
      else if startsWithL ref ['/'] then some (sch ++ SCHEME_SEP ++ auth ++ ref)
      else some (sch ++ SCHEME_SEP ++ auth ++ mergeSlash path ref)

/-- The literal `"http://"`. -/
def httpSlashes : Str := ['h', 't', 't', 'p', ':', '/', '/']

/-- The literal `"https://"`. -/
def httpsSlashes : Str := ['h', 't', 't', 'p', 's', ':', '/', '/']

/-- The literal `"//"`. -/
def protoRel : Str := ['/', '/']

/-- The absolute-reference test of `rewriteHlsManifest`
(`line.startsWith('http://') || line.startsWith('https://') ||
line.startsWith('//')`). -/
def isAbsoluteRef (line : Str) : Bool :=
  startsWithL line httpsSlashes || startsWithL line httpSlashes ||
    startsWithL line protoRel

/-- One line of the manifest rewrite (`src/server.js` lines 24–35): a line
whose trim is falsy, or which starts with `'#'`, passes through; an already
absolute reference passes through; otherwise the trimmed line is resolved
against the base, the original line being kept when resolution fails
(the `try`/`catch`). -/
def rewriteLine (base line : Str) : Str :=
  if (trimL line).isEmpty || startsWithL line ['#'] then line
  else if isAbsoluteRef line then line
  else
    match urlResolve base (trimL line) with
    | some r => r
    | none => line

/-- `rewriteHlsManifest` of `src/server.js` lines 21–37: split on `'\n'`,
rewrite each line against the base directory URL of `baseUrl`, join. -/
def rewriteHlsManifest (manifestContent baseUrl : Str) : Str :=
  joinNL ((splitNL manifestContent).map (rewriteLine (baseOf baseUrl)))

/-- The constant `HLS_FORMAT_NAME = 'hls'`. -/
def HLS_FORMAT_NAME : Str := ['h', 'l', 's']

/-- One entry of a provider's format list (Invidious `formatStreams` /
`adaptiveFormats` element).  Absent JSON fields are `none`. -/
structure Format where
  container : Option Str
  qualityLabel : Option Str
  url : Option Str

/-- A parsed provider response body (`videoInfo`). -/
structure VideoInfo where
  formatStreams : Option (List Format)
  adaptiveFormats : Option (List Format)
  hlsUrl : Option Str

/-- Outcome of one provider query: a rejected fetch (network failure), an
abort (timeout), or an HTTP response with a status and a body that either
parses as JSON (`some info`) or not (`none`). -/
inductive FetchResult where
  | networkError : FetchResult
  | timeout : FetchResult
  | response : Nat → Option VideoInfo → FetchResult

/-- The format predicate of the resolver (`src/server.js` lines 62–65):
`f.container === 'hls' || (f.qualityLabel &&
f.qualityLabel.toLowerCase().includes('hls'))`.  An empty quality label is
falsy in JS, hence the `!q.isEmpty`. -/
def isHlsFormat (f : Format) : Bool :=
  f.container == some HLS_FORMAT_NAME ||
    (match f.qualityLabel with
     | some q => !q.isEmpty && containsL (lowerL q) HLS_FORMAT_NAME
     | none => false)

/-- `videoInfo.formatStreams || videoInfo.adaptiveFormats || []`: any present
array (even empty) is truthy in JS, so `adaptiveFormats` is consulted only
when `formatStreams` is absent. -/
def formatsOf (info : VideoInfo) : List Format :=
  match info.formatStreams with
  | some fs => fs
  | none =>
    match info.adaptiveFormats with
    | some afs => afs
    | none => []

/-- `const hlsUrl = hlsFormat ? hlsFormat.url : videoInfo.hlsUrl` after
`formats.find(...)` (`src/server.js` lines 60–67). -/
def extractHlsUrl (info : VideoInfo) : Option Str :=
  match (formatsOf info).find? isHlsFormat with
  | some f => f.url
  | none => info.hlsUrl

/-- JS truthiness of an optional string (`if (hlsUrl) ...`): absent and empty
are both falsy. -/
def truthyStr : Option Str → Option Str
  | some u => if u.isEmpty then none else some u
  | none => none

/-- `response.ok` of the Fetch API: status in 200–299. -/
def okStatus (s : Nat) : Bool := decide (200 ≤ s) && decide (s < 300)

/-- The fixed query path `/api/v1/videos/`. -/
def apiPath : Str := "/api/v1/videos/".data

/-- The per-provider query URL `` `${instance}/api/v1/videos/${videoId}` ``. -/
def apiUrl (instanceUrl videoId : Str) : Str := instanceUrl ++ apiPath ++ videoId

/-- One iteration of the resolver loop of `src/server.js` (lines 44–83):
every failure outcome — rejected fetch, abort, non-2xx status (the `throw` on
`!response.ok`), unparseable body (`response.json()` rejecting), or no usable
URL in the body — is caught and yields `none` (continue with the next
instance); a usable extracted URL yields `some`. -/
def tryInstance (env : Str → FetchResult) (videoId instanceUrl : Str) : Option Str :=
  match env (apiUrl instanceUrl videoId) with
  | FetchResult.networkError => none
  | FetchResult.timeout => none
  | FetchResult.response status body =>
    if okStatus status then
      match body with
      | some info => truthyStr (extractHlsUrl info)
      | none => none
    else none

/-- The resolver loop over an instance list, also recording which instances
were queried, in order.  Returns the trace and the result. -/
def resolveTrace (env : Str → FetchResult) (videoId : Str) :
    List Str → List Str × Option Str
  | [] => ([], none)
  | inst :: rest =>
    match tryInstance env videoId inst with
    | some u => ([inst], some u)
    | none =>
      let p := resolveTrace env videoId rest
      (inst :: p.1, p.2)

/-- The static ordered instance list `INVIDIOUS_INSTANCES` of `src/server.js`. -/
def INVIDIOUS_INSTANCES : List Str :=
  ["https://invidious.f5.si".data, "https://yt.omada.cafe".data,
   "https://inv.perditum.com".data, "https://iv.melmac.space".data,
   "https://invidious.nikkosphere.com".data, "https://iv.duti.dev".data,
   "https://youtube.alt.tyil.nl".data, "https://inv.antopie.org".data,
   "https://lekker.gay".data, "https://invidious.ducks.party".data,
   "https://super8.absturztau.be".data, "https://inv.vern.cc".data,
   "https://yt.thechangebook.org".data, "https://invidious.materialio.us".data,
   "https://invid-api.poketube.fun".data]

/-- `getHlsUrlFromInvidious` of `src/server.js` lines 39–86: try the instances
in order, return the first usable stream URL, `null` (`none`) when every
instance fails. -/
def getHlsUrlFromInvidious (env : Str → FetchResult) (videoId : Str) : Option Str :=
  (resolveTrace env videoId INVIDIOUS_INSTANCES).2

/-- The literal `"http"`. -/
def httpPre : Str := ['h', 't', 't', 'p']

/-- One iteration of the resolver loop of `src/unnamed/part_000` (lines
52–104), which differs from `src/server.js` in one respect: an extracted URL
not starting with `'http'` is resolved against the instance base URL
(`hlsUrl = url.resolve(instance, hlsUrl)`) before being returned.  A failure
of that resolution would be caught by the surrounding `try` and the loop
would continue, hence the `none`. -/
def tryInstanceResolving (env : Str → FetchResult) (videoId instanceUrl : Str) :
    Option Str :=
  match env (apiUrl instanceUrl videoId) with
  | FetchResult.networkError => none
  | FetchResult.timeout => none
  | FetchResult.response status body =>
    if okStatus status then
      match body with
      | some info =>
        match truthyStr (extractHlsUrl info) with
        | some u =>
          if startsWithL u httpPre then some u else urlResolve instanceUrl u
        | none => none
      | none => none
    else none

/-- The resolver loop of `src/unnamed/part_000`. -/
def resolveLoopP0 (env : Str → FetchResult) (videoId : Str) : List Str → Option Str
  | [] => none
  | inst :: rest =>
    match tryInstanceResolving env videoId inst with
    | some u => some u
    | none => resolveLoopP0 env videoId rest

/-- `getHlsUrlFromInvidious` of `src/unnamed/part_000` lines 52–104. -/
def getHlsUrlFromInvidiousP0 (env : Str → FetchResult) (videoId : Str) : Option Str :=
  resolveLoopP0 env videoId INVIDIOUS_INSTANCES

/-- `newDomain.replace(/https?:\/\//, '')` of `src/unnamed/part_000` line 43:
remove the leftmost occurrence of `https://` (preferred, the regex being
greedy) or `http://` — anywhere in the string, the regex being unanchored. -/
def stripScheme : Str → Str
  | [] => []
  | c :: cs =>
    if startsWithL (c :: cs) httpsSlashes then (c :: cs).drop 8
    else if startsWithL (c :: cs) httpSlashes then (c :: cs).drop 7
    else c :: stripScheme cs

/-- `replaceDomain` of `src/unnamed/part_000` lines 40–50: parse the URL
(`new URL(hlsUrl)`, modelled by `parseBase` per the spec), replace the host
with the scheme-stripped target, force the scheme to `https`, keep path and
query; return the input unchanged when parsing fails (the `catch`). -/
def replaceDomain (hlsUrl newDomain : Str) : Str :=
  match parseBase hlsUrl with
  | none => hlsUrl
  | some (_, _, rest) => httpsSlashes ++ stripScheme newDomain ++ rest

/-- Following the words of claim C8 ("the target with any 'http://' or
'https://' prefix stripped"): strip a scheme only when it is an initial
segment of the target.  Stated for comparison with `stripScheme`, which is
what the code computes. -/
def claimHostStrip (t : Str) : Str :=
  if startsWithL t httpsSlashes then t.drop 8
  else if startsWithL t httpSlashes then t.drop 7
  else t

/-! ### Basic lemmas about the string primitives -/

theorem startsWithL_nil_right (s : Str) : startsWithL s [] = true := by
  cases s <;> rfl

theorem startsWithL_cons (c : Char) (cs : Str) (p : Char) (ps : Str) :
    startsWithL (c :: cs) (p :: ps) = ((c == p) && startsWithL cs ps) := rfl

theorem takeWhile_append_of_all {p : Char → Bool} :
    ∀ (xs : Str) (y : Char) (ys : Str), (∀ x ∈ xs, p x = true) → p y = false →
      (xs ++ y :: ys).takeWhile p = xs ∧ (xs ++ y :: ys).dropWhile p = y :: ys := by
  intro xs y ys hall hy
  induction xs with
  | nil => simp [List.takeWhile, List.dropWhile, hy]
  | cons x xs ih =>
    have hx : p x = true := hall x (List.mem_cons_self x xs)
    have hrest := ih (fun a ha => hall a (List.mem_cons_of_mem x ha))
    simp [List.takeWhile, List.dropWhile, hx, hrest.1, hrest.2]

theorem takeWhile_of_all {p : Char → Bool} :
    ∀ (xs : Str), (∀ x ∈ xs, p x = true) →
      xs.takeWhile p = xs ∧ xs.dropWhile p = [] := by
  intro xs hall
  induction xs with
  | nil => simp
  | cons x xs ih =>
    have hx : p x = true := hall x (List.mem_cons_self x xs)
    have hrest := ih (fun a ha => hall a (List.mem_cons_of_mem x ha))
    simp [List.takeWhile, List.dropWhile, hx, hrest.1, hrest.2]

theorem dropWhile_head_false {p : Char → Bool} :
    ∀ (l : Str), l.dropWhile p = [] ∨
      ∃ c t, l.dropWhile p = c :: t ∧ p c = false := by
  intro l
  induction l with
  | nil => exact Or.inl rfl
  | cons c cs ih =>
    by_cases hc : p c = true
    · simpa [List.dropWhile, hc] using ih
    · exact Or.inr ⟨c, cs, by simp [List.dropWhile, hc], by simpa using hc⟩

theorem dropWhile_append_of_all {p : Char → Bool} :
    ∀ (w x : Str), (∀ c ∈ w, p c = true) → (w ++ x).dropWhile p = x.dropWhile p := by
  intro w x hall
  induction w with
  | nil => rfl
  | cons c cs ih =>
    have hc : p c = true := hall c (List.mem_cons_self c cs)
    simpa [List.dropWhile, hc] using ih (fun a ha => hall a (List.mem_cons_of_mem c ha))

theorem mem_of_mem_dropWhile {p : Char → Bool} :
    ∀ (l : Str) (a : Char), a ∈ l.dropWhile p → a ∈ l := by
  intro l a h
  induction l with
  | nil => simpa [List.dropWhile] using h
  | cons c cs ih =>
    by_cases hc : p c = true
    · exact List.mem_cons_of_mem c (ih (by simpa [List.dropWhile, hc] using h))
    · simpa [List.dropWhile, hc] using h

theorem mem_of_mem_takeWhile {p : Char → Bool} :
    ∀ (l : Str) (a : Char), a ∈ l.takeWhile p → a ∈ l := by
  intro l a h
  induction l with
  | nil => simpa [List.takeWhile] using h
  | cons c cs ih =>
    by_cases hc : p c = true
    · rcases (by simpa [List.takeWhile, hc] using h : a = c ∨ a ∈ cs.takeWhile p) with h1 | h1
      · exact h1 ▸ List.mem_cons_self c cs
      · exact List.mem_cons_of_mem c (ih h1)
    · simp [List.takeWhile, hc] at h

theorem all_of_mem_takeWhile {p : Char → Bool} :
    ∀ (l : Str) (a : Char), a ∈ l.takeWhile p → p a = true := by
  intro l a h
  induction l with
  | nil => simp [List.takeWhile] at h
  | cons c cs ih =>
    by_cases hc : p c = true
    · rcases (by simpa [List.takeWhile, hc] using h : a = c ∨ a ∈ cs.takeWhile p) with h1 | h1
      · exact h1 ▸ hc
      · exact ih h1
    · simp [List.takeWhile, hc] at h

theorem mem_baseOf {a : Char} {s : Str} (h : a ∈ baseOf s) : a ∈ s := by
  unfold baseOf at h
  rw [List.mem_reverse] at h
  exact List.mem_reverse.mp (mem_of_mem_dropWhile _ _ h)

/-! ### Lemmas about `rstrip` and `trimL` -/

theorem rstrip_cons_eq (c : Char) (cs : Str) :
    rstrip (c :: cs) =
      match rstrip cs with
      | [] => if isWs c then [] else [c]
      | d :: ds => c :: d :: ds := rfl

theorem rstrip_cons_shape (c : Char) (cs : Str) :
    rstrip (c :: cs) = [] ∨ ∃ t, rstrip (c :: cs) = c :: t := by
  rw [rstrip_cons_eq]
  cases h : rstrip cs with
  | nil =>
    by_cases hc : isWs c = true
    · exact Or.inl (by simp [hc])
    · exact Or.inr ⟨[], by simp [hc]⟩
  | cons d ds => exact Or.inr ⟨d :: ds, rfl⟩

theorem rstrip_idem : ∀ (l : Str), rstrip (rstrip l) = rstrip l := by
  intro l
  induction l with
  | nil => rfl
  | cons c cs ih =>
    cases h : rstrip cs with
    | nil =>
      rw [rstrip_cons_eq, h]
      by_cases hc : isWs c = true
      · rw [if_pos hc]; rfl
      · rw [if_neg hc]
        show rstrip [c] = [c]
        rw [rstrip_cons_eq]
        simp [rstrip, hc]
    | cons d ds =>
      rw [rstrip_cons_eq, h]
      have hdds : rstrip (d :: ds) = d :: ds := h ▸ ih
      show rstrip (c :: (d :: ds)) = c :: (d :: ds)
      rw [rstrip_cons_eq, hdds]

theorem rstrip_append_right :
    ∀ (y z : Str), rstrip z = z → z ≠ [] → rstrip (y ++ z) = y ++ z := by
  intro y z hz hne
  induction y with
  | nil => simpa using hz
  | cons c cs ih =>
    have hcons : ∃ d ds, cs ++ z = d :: ds := by
      cases h : cs ++ z with
      | nil =>
        rcases List.append_eq_nil.mp h with ⟨_, h2⟩
        exact absurd h2 hne
      | cons d ds => exact ⟨d, ds, rfl⟩
    rcases hcons with ⟨d, ds, hds⟩
    show rstrip (c :: (cs ++ z)) = c :: (cs ++ z)
    unfold rstrip
    rw [ih, hds]

theorem mem_rstrip : ∀ (l : Str) (a : Char), a ∈ rstrip l → a ∈ l := by
  intro l a h
  induction l with
  | nil => simpa [rstrip] using h
  | cons c cs ih =>
    unfold rstrip at h
    cases hs : rstrip cs with
    | nil =>
      rw [hs] at h
      by_cases hc : isWs c = true
      · simp [hc] at h
      · simp [hc] at h
        exact h ▸ List.mem_cons_self c cs
    | cons d ds =>
      rw [hs] at h
      rcases List.mem_cons.mp h with h1 | h1
      · exact h1 ▸ List.mem_cons_self c cs
      · exact List.mem_cons_of_mem c (ih (hs ▸ h1))

theorem trimL_head_not_ws {l : Str} {c : Char} {t : Str}
    (h : trimL l = c :: t) : isWs c = false := by
  unfold trimL at h
  rcases dropWhile_head_false (p := isWs) l with hd | ⟨c0, t0, hd, hc0⟩
  · rw [hd] at h; simp [rstrip] at h
  · rw [hd] at h
    rcases rstrip_cons_shape c0 t0 with h1 | ⟨t1, h1⟩
    · rw [h1] at h; exact absurd h (by simp)
    · rw [h1] at h
      injection h with h2 h3
      exact h2 ▸ hc0

theorem rstrip_trimL (l : Str) : rstrip (trimL l) = trimL l := by
  unfold trimL
  exact rstrip_idem _

theorem trimL_idem (l : Str) : trimL (trimL l) = trimL l := by
  cases h : trimL l with
  | nil => rfl
  | cons c t =>
    have hc : isWs c = false := trimL_head_not_ws h
    have h1 : (c :: t).dropWhile isWs = c :: t := by simp [List.dropWhile, hc]
    show trimL (c :: t) = c :: t
    unfold trimL
    rw [h1, ← h, rstrip_trimL]

theorem trimL_ws_append {w x : Str} (h : ∀ c ∈ w, isWs c = true) :
    trimL (w ++ x) = trimL x := by
  unfold trimL
  rw [dropWhile_append_of_all w x h]

theorem mem_trimL {a : Char} {l : Str} (h : a ∈ trimL l) : a ∈ l :=
  mem_of_mem_dropWhile _ _ (mem_rstrip _ _ h)

theorem trimL_eq_self {c : Char} {t : Str} (hc : isWs c = false)
    (hr : rstrip (c :: t) = c :: t) : trimL (c :: t) = c :: t := by
  unfold trimL
  rw [show (c :: t).dropWhile isWs = c :: t by simp [List.dropWhile, hc], hr]

/-! ### Lemmas about `splitNL` and `joinNL` -/

theorem splitNL_cons_eq (c : Char) (cs : Str) :
    splitNL (c :: cs) =
      if c = '\n' then [] :: splitNL cs
      else
        match splitNL cs with
        | [] => [[c]]
        | l :: ls => (c :: l) :: ls := rfl

theorem splitNL_ne_nil : ∀ (s : Str), splitNL s ≠ [] := by
  intro s
  induction s with
  | nil => simp [splitNL]
  | cons c cs ih =>
    unfold splitNL
    by_cases hc : c = '\n'
    · simp [hc]
    · simp only [hc, if_false]
      cases h : splitNL cs with
      | nil => simp
      | cons l ls => simp

theorem mem_splitNL_no_nl : ∀ (s : Str) (l : Str), l ∈ splitNL s → '\n' ∉ l := by
  intro s
  induction s with
  | nil =>
    intro l h
    have : l = [] := by simpa [splitNL] using h
    simp [this]
  | cons c cs ih =>
    intro l h
    unfold splitNL at h
    by_cases hc : c = '\n'
    · rw [if_pos hc] at h
      rcases List.mem_cons.mp h with h1 | h1
      · simp [h1]
      · exact ih l h1
    · rw [if_neg hc] at h
      cases hs : splitNL cs with
      | nil => exact absurd hs (splitNL_ne_nil cs)
      | cons l0 ls =>
        rw [hs] at h
        rcases List.mem_cons.mp h with h1 | h1
        · subst h1
          intro hmem
          rcases List.mem_cons.mp hmem with h2 | h2
          · exact hc h2.symm
          · exact ih l0 (hs ▸ List.mem_cons_self l0 ls) h2
        · exact ih l (hs ▸ List.mem_cons_of_mem l0 h1)

theorem splitNL_no_nl {l : Str} (h : '\n' ∉ l) : splitNL l = [l] := by
  induction l with
  | nil => rfl
  | cons c cs ih =>
    have hc : ¬(c = '\n') := fun he => h (he ▸ List.mem_cons_self c cs)
    have hcs : '\n' ∉ cs := fun hm => h (List.mem_cons_of_mem c hm)
    unfold splitNL
    rw [if_neg hc, ih hcs]

theorem splitNL_append_nl {l : Str} (t : Str) (h : '\n' ∉ l) :
    splitNL (l ++ '\n' :: t) = l :: splitNL t := by
  induction l with
  | nil => simp [splitNL]
  | cons c cs ih =>
    have hc : ¬(c = '\n') := fun he => h (he ▸ List.mem_cons_self c cs)
    have hcs : '\n' ∉ cs := fun hm => h (List.mem_cons_of_mem c hm)
    show splitNL (c :: (cs ++ '\n' :: t)) = (c :: cs) :: splitNL t
    rw [splitNL_cons_eq, if_neg hc, ih hcs]

theorem splitNL_joinNL :
    ∀ (ls : List Str), ls ≠ [] → (∀ l ∈ ls, '\n' ∉ l) →
      splitNL (joinNL ls) = ls := by
  intro ls
  induction ls with
  | nil => intro h; exact absurd rfl h
  | cons l ls ih =>
    intro _ hall
    cases ls with
    | nil => exact splitNL_no_nl (hall l (List.mem_cons_self l []))
    | cons l2 ls2 =>
      show splitNL (l ++ '\n' :: joinNL (l2 :: ls2)) = l :: (l2 :: ls2)
      rw [splitNL_append_nl _ (hall l (List.mem_cons_self l _))]
      rw [ih (by simp) (fun a ha => hall a (List.mem_cons_of_mem l ha))]

/-! ### Character-class facts -/

theorem ws_cases {c : Char} (h : isWs c = true) :
    c = ' ' ∨ c = '\t' ∨ c = '\n' ∨ c = '\r' ∨ c = '\x0b' ∨ c = '\x0c' := by
  simp only [isWs, Bool.or_eq_true, beq_iff_eq] at h
  tauto

theorem schemeChar_not_ws {c : Char} (h : isSchemeChar c = true) : isWs c = false := by
  by_contra hw
  rcases ws_cases (Bool.not_eq_false _ ▸ hw) with h1 | h1 | h1 | h1 | h1 | h1 <;>
    · subst h1; exact absurd h (by decide)

theorem alpha_not_ws {c : Char} (h : c.isAlpha = true) : isWs c = false := by
  by_contra hw
  rcases ws_cases (Bool.not_eq_false _ ▸ hw) with h1 | h1 | h1 | h1 | h1 | h1 <;>
    · subst h1; exact absurd h (by decide)

theorem ws_beq_false {c x : Char} (h : isWs c = true) (hx : isWs x = false) :
    (c == x) = false := by
  by_cases he : c = x
  · subst he; rw [h] at hx; exact absurd hx (by simp)
  · exact beq_eq_false_iff_ne.mpr he

theorem alpha_beq_false {c x : Char} (h : c.isAlpha = true) (hx : x.isAlpha = false) :
    (c == x) = false := by
  by_cases he : c = x
  · subst he; rw [h] at hx; exact absurd hx (by simp)
  · exact beq_eq_false_iff_ne.mpr he

/-! ### Lemmas about `schemeSplit`, `hasScheme` and `parseBase` -/

theorem schemeSplit_some {s sch rest : Str}
    (h : schemeSplit s = some (sch, rest)) :
    s = sch ++ ':' :: rest ∧ (∃ c pre, sch = c :: pre ∧ c.isAlpha = true) ∧
      (∀ c ∈ sch, isSchemeChar c = true) := by
  unfold schemeSplit at h
  split at h
  next c pre d rest0 ht hd =>
    split at h
    next hcd =>
      injection h with h1
      injection h1 with h2 h3
      subst h3
      refine ⟨?_, ?_, ?_⟩
      · rw [← List.takeWhile_append_dropWhile (p := isSchemeChar) (l := s), ht, hd,
          ← h2, hcd.2]
      · exact ⟨c, pre, h2.symm, hcd.1⟩
      · intro a hm
        rw [← h2] at hm
        exact all_of_mem_takeWhile s a (ht ▸ hm)
    next => exact absurd h (by simp)
  next => exact absurd h (by simp)

theorem schemeSplit_mk {sch : Str} (rest : Str) {c : Char} {pre : Str}
    (hsch : sch = c :: pre) (ha : c.isAlpha = true)
    (hall : ∀ x ∈ sch, isSchemeChar x = true) :
    schemeSplit (sch ++ ':' :: rest) = some (sch, rest) := by
  have hcolon : isSchemeChar ':' = false := by decide
  have h := takeWhile_append_of_all sch ':' rest hall hcolon
  unfold schemeSplit
  rw [h.1, h.2, hsch]
  simp [ha]

theorem hasScheme_mk {sch : Str} (rest : Str) {c : Char} {pre : Str}
    (hsch : sch = c :: pre) (ha : c.isAlpha = true)
    (hall : ∀ x ∈ sch, isSchemeChar x = true) :
    hasScheme (sch ++ ':' :: rest) = true := by
  unfold hasScheme
  rw [schemeSplit_mk rest hsch ha hall]
  rfl

theorem parseBase_some {b sch auth path : Str}
    (h : parseBase b = some (sch, auth, path)) :
    b = sch ++ ':' :: '/' :: '/' :: (auth ++ path) ∧
      (∀ c ∈ b, isWs c = false) ∧
      (∃ c pre, sch = c :: pre ∧ c.isAlpha = true) ∧
      (∀ c ∈ sch, isSchemeChar c = true) ∧
      (path = [] ∨ ∃ pc pt, path = pc :: pt ∧ isAuthChar pc = false) ∧
      (∀ c ∈ auth, isAuthChar c = true) := by
  unfold parseBase at h
  split at h
  next hws => exact absurd h (by simp)
  next hws =>
    have hnoWs : ∀ c ∈ b, isWs c = false := by
      intro c hc
      by_contra habs
      exact hws (List.any_eq_true.mpr ⟨c, hc, Bool.not_eq_false _ ▸ habs⟩)
    split at h
    next sch0 rest0 hs =>
      rcases schemeSplit_some hs with ⟨hb, halpha, hschall⟩
      split at h
      next d1 d2 after =>
        split at h
        next hd12 =>
          injection h with h1
          injection h1 with h2 h3
          injection h3 with h4 h5
          subst h2
          refine ⟨?_, hnoWs, halpha, hschall, ?_, ?_⟩
          · rw [hb, hd12.1, hd12.2, ← h4, ← h5,
              List.takeWhile_append_dropWhile (p := isAuthChar) (l := after)]
          · rw [← h5]
            rcases dropWhile_head_false (p := isAuthChar) after with hd | ⟨pc, pt, hd, hpc⟩
            · exact Or.inl hd
            · exact Or.inr ⟨pc, pt, hd, hpc⟩
          · intro c hc
            rw [← h4] at hc
            exact all_of_mem_takeWhile after c hc
        next => exact absurd h (by simp)
      next => exact absurd h (by simp)
    next => exact absurd h (by simp)

/-! ### Lemmas about `urlResolve` -/

theorem urlResolve_of_hasScheme {base ref : Str} (h : hasScheme ref = true) :
    urlResolve base ref = some ref := by
  unfold urlResolve
  rw [h]
  rfl

theorem urlResolve_output {base ref r : Str} (h : urlResolve base ref = some r) :
    (r = ref ∧ hasScheme ref = true) ∨
    (∃ sch tail, r = sch ++ ':' :: tail ∧
      (∃ c pre, sch = c :: pre ∧ c.isAlpha = true) ∧
      (∀ c ∈ sch, isSchemeChar c = true) ∧
      (∃ y, r = y ++ ref)) := by
  unfold urlResolve at h
  split at h
  next hsc =>
    injection h with h1
    exact Or.inl ⟨h1.symm, hsc⟩
  next hsc =>
    split at h
    next hp => exact absurd h (by simp)
    next sch auth path hp =>
      rcases parseBase_some hp with ⟨_, _, halpha, hschall, _, _⟩
      split at h
      next h2 =>
        injection h with h1
        exact Or.inr ⟨sch, ref, h1.symm, halpha, hschall, ⟨sch ++ [':'], by
          rw [← h1]; simp⟩⟩
      next h2 =>
        split at h
        next h3 =>
          injection h with h1
          refine Or.inr ⟨sch, '/' :: '/' :: (auth ++ ref), ?_, halpha, hschall,
            ⟨sch ++ SCHEME_SEP ++ auth, by rw [← h1]⟩⟩
          rw [← h1]
          show sch ++ SCHEME_SEP ++ auth ++ ref = sch ++ ':' :: '/' :: '/' :: (auth ++ ref)
          simp [SCHEME_SEP]
        next h3 =>
          injection h with h1
          cases hm : baseOf path with
          | nil =>
            refine Or.inr ⟨sch, '/' :: '/' :: (auth ++ ('/' :: ref)), ?_, halpha,
              hschall, ⟨sch ++ SCHEME_SEP ++ auth ++ ['/'], ?_⟩⟩
            · rw [← h1]
              show sch ++ SCHEME_SEP ++ auth ++ mergeSlash path ref =
                sch ++ ':' :: '/' :: '/' :: (auth ++ '/' :: ref)
              unfold mergeSlash
              rw [hm]
              simp [SCHEME_SEP]
            · rw [← h1]
              show sch ++ SCHEME_SEP ++ auth ++ mergeSlash path ref =
                sch ++ SCHEME_SEP ++ auth ++ ['/'] ++ ref
              unfold mergeSlash
              rw [hm]
              simp
          | cons d ds =>
            refine Or.inr ⟨sch, '/' :: '/' :: (auth ++ ((d :: ds) ++ ref)), ?_, halpha,
              hschall, ⟨sch ++ SCHEME_SEP ++ auth ++ (d :: ds), ?_⟩⟩
            · rw [← h1]
              show sch ++ SCHEME_SEP ++ auth ++ mergeSlash path ref =
                sch ++ ':' :: '/' :: '/' :: (auth ++ ((d :: ds) ++ ref))
              unfold mergeSlash
              rw [hm]
              simp [SCHEME_SEP]
            · rw [← h1]
              show sch ++ SCHEME_SEP ++ auth ++ mergeSlash path ref =
                sch ++ SCHEME_SEP ++ auth ++ (d :: ds) ++ ref
              unfold mergeSlash
              rw [hm]
              simp

theorem urlResolve_some_hasScheme {base ref r : Str}
    (h : urlResolve base ref = some r) : hasScheme r = true := by
  rcases urlResolve_output h with ⟨he, hs⟩ | ⟨sch, tail, hr, ⟨c, pre, hc, ha⟩, hall, _⟩
  · exact he ▸ hs
  · exact hr ▸ hasScheme_mk tail hc ha hall

/-! ### Shape of successful resolution outputs -/

theorem isEmpty_false_of_ne_nil {l : Str} (h : l ≠ []) : l.isEmpty = false := by
  cases l with
  | nil => exact absurd rfl h
  | cons c cs => rfl

theorem ne_nil_of_isEmpty_false {l : Str} (h : l.isEmpty = false) : l ≠ [] := by
  cases l with
  | nil => simp [List.isEmpty] at h
  | cons c cs => simp

theorem resolve_clean_output {base ref r : Str} (h : urlResolve base ref = some r)
    (h1 : ref ≠ []) (h2 : trimL ref = ref) :
    trimL r = r ∧ r ≠ [] ∧ startsWithL r ['#'] = false ∧ urlResolve base r = some r := by
  have hrstrip_ref : rstrip ref = ref := by
    conv_lhs => rw [← h2]
    rw [rstrip_trimL, h2]
  rcases urlResolve_output h with ⟨he, hs⟩ | ⟨sch, tail, hr, ⟨c, pre, hc, ha⟩, hall, y, hy⟩
  · subst he
    obtain ⟨p, hp⟩ := Option.isSome_iff_exists.mp (by unfold hasScheme at hs; exact hs)
    obtain ⟨sch, rest⟩ := p
    rcases schemeSplit_some hp with ⟨href, ⟨c, pre, hsch, ha⟩, _⟩
    have hcons : r = c :: (pre ++ ':' :: rest) := by rw [href, hsch]; rfl
    refine ⟨h2, h1, ?_, urlResolve_of_hasScheme hs⟩
    rw [hcons, startsWithL_cons, startsWithL_nil_right, Bool.and_true]
    exact alpha_beq_false ha (by decide)
  · have hsr : hasScheme r = true := hr ▸ hasScheme_mk tail hc ha hall
    have hcons : r = c :: (pre ++ ':' :: tail) := by rw [hr, hc]; rfl
    have hcws : isWs c = false := alpha_not_ws ha
    have hrr : rstrip r = r := by
      rw [hy]
      exact rstrip_append_right y ref hrstrip_ref h1
    have hdrop : r.dropWhile isWs = r := by
      rw [hcons]
      simp [List.dropWhile, hcws]
    have htr : trimL r = r := by
      unfold trimL
      rw [hdrop, hrr]
    refine ⟨htr, by rw [hcons]; simp, ?_, urlResolve_of_hasScheme hsr⟩
    rw [hcons, startsWithL_cons, startsWithL_nil_right, Bool.and_true]
    exact alpha_beq_false ha (by decide)

/-! ### Branch lemmas for `rewriteLine` -/

theorem rewriteLine_skip {base line : Str}
    (hc1 : ((trimL line).isEmpty || startsWithL line ['#']) = true) :
    rewriteLine base line = line := by
  unfold rewriteLine
  rw [hc1]
  rfl

theorem rewriteLine_abs {base line : Str}
    (hc1 : ((trimL line).isEmpty || startsWithL line ['#']) = false)
    (hc2 : isAbsoluteRef line = true) :
    rewriteLine base line = line := by
  unfold rewriteLine
  rw [hc1, hc2]
  rfl

theorem rewriteLine_resolved {base line r : Str}
    (hc1 : ((trimL line).isEmpty || startsWithL line ['#']) = false)
    (hc2 : isAbsoluteRef line = false)
    (hres : urlResolve base (trimL line) = some r) :
    rewriteLine base line = r := by
  unfold rewriteLine
  rw [hc1, hc2, hres]
  rfl

theorem rewriteLine_unresolved {base line : Str}
    (hc1 : ((trimL line).isEmpty || startsWithL line ['#']) = false)
    (hc2 : isAbsoluteRef line = false)
    (hres : urlResolve base (trimL line) = none) :
    rewriteLine base line = line := by
  unfold rewriteLine
  rw [hc1, hc2, hres]
  rfl

theorem rewriteLine_idem (base line : Str) :
    rewriteLine base (rewriteLine base line) = rewriteLine base line := by
  by_cases hc1 : ((trimL line).isEmpty || startsWithL line ['#']) = true
  · rw [rewriteLine_skip hc1, rewriteLine_skip hc1]
  · have hc1f : ((trimL line).isEmpty || startsWithL line ['#']) = false :=
      Bool.eq_false_iff.mpr hc1
    by_cases hc2 : isAbsoluteRef line = true
    · rw [rewriteLine_abs hc1f hc2, rewriteLine_abs hc1f hc2]
    · have hc2f : isAbsoluteRef line = false := Bool.eq_false_iff.mpr hc2
      cases hres : urlResolve base (trimL line) with
      | none =>
        have hl := rewriteLine_unresolved hc1f hc2f hres
        rw [hl]
        exact hl
      | some r =>
        have hl := rewriteLine_resolved hc1f hc2f hres
        rw [hl]
        have hne : trimL line ≠ [] :=
          ne_nil_of_isEmpty_false (Bool.or_eq_false_iff.mp hc1f).1
        obtain ⟨htr, hrne, hsharp, hres2⟩ :=
          resolve_clean_output hres hne (trimL_idem line)
        have hc1r : ((trimL r).isEmpty || startsWithL r ['#']) = false := by
          rw [htr, hsharp, isEmpty_false_of_ne_nil hrne]
          rfl
        by_cases habs : isAbsoluteRef r = true
        · exact rewriteLine_abs hc1r habs
        · exact rewriteLine_resolved hc1r (Bool.eq_false_iff.mpr habs)
            (by rw [htr]; exact hres2)

/-! ### Newline preservation -/

theorem resolve_no_newline {base ref r : Str} (h : urlResolve base ref = some r)
    (hn : '\n' ∉ ref) : '\n' ∉ r := by
  unfold urlResolve at h
  split at h
  next hsc =>
    injection h with h1
    exact h1 ▸ hn
  next hsc =>
    split at h
    next hp => exact absurd h (by simp)
    next sch auth path hp =>
      rcases parseBase_some hp with ⟨hb, hnoWs, _, _, _, _⟩
      have hsch : '\n' ∉ sch := by
        intro hm
        have : '\n' ∈ base := by rw [hb]; exact List.mem_append_left _ hm
        exact absurd (hnoWs '\n' this) (by decide)
      have hauth : '\n' ∉ auth := by
        intro hm
        have : '\n' ∈ base := by rw [hb]; simp [hm]
        exact absurd (hnoWs '\n' this) (by decide)
      have hpath : '\n' ∉ path := by
        intro hm
        have : '\n' ∈ base := by rw [hb]; simp [hm]
        exact absurd (hnoWs '\n' this) (by decide)
      split at h
      next h2 =>
        injection h with h1
        rw [← h1]
        intro hmem
        rcases List.mem_append.mp hmem with hm | hm
        · exact hsch hm
        · rcases List.mem_cons.mp hm with hm2 | hm2
          · exact absurd hm2 (by decide)
          · exact hn hm2
      next h2 =>
        split at h
        next h3 =>
          injection h with h1
          rw [← h1]
          intro hmem
          simp only [List.append_assoc, List.mem_append] at hmem
          rcases hmem with hm | hm | hm
          · exact hsch hm
          · rcases (by simpa [SCHEME_SEP] using hm :
              '\n' = ':' ∨ '\n' = '/' ∨ '\n' = '/') with h4 | h4 | h4 <;> exact absurd h4 (by decide)
          · rcases hm with hm2 | hm2
            · exact hauth hm2
            · exact hn hm2
        next h3 =>
          injection h with h1
          rw [← h1]
          intro hmem
          simp only [List.append_assoc, List.mem_append] at hmem
          rcases hmem with hm | hm | hm
          · exact hsch hm
          · rcases (by simpa [SCHEME_SEP] using hm :
              '\n' = ':' ∨ '\n' = '/' ∨ '\n' = '/') with h4 | h4 | h4 <;> exact absurd h4 (by decide)
          · rcases hm with hm2 | hm2
            · exact hauth hm2
            · unfold mergeSlash at hm2
              cases hbase : baseOf path with
              | nil =>
                rw [hbase] at hm2
                rcases List.mem_cons.mp hm2 with hm3 | hm3
                · exact absurd hm3 (by decide)
                · exact hn hm3
              | cons d ds =>
                rw [hbase] at hm2
                rcases List.mem_append.mp hm2 with hm3 | hm3
                · exact hpath (mem_baseOf (hbase ▸ hm3))
                · exact hn hm3

theorem rewriteLine_no_nl {base line : Str} (h : '\n' ∉ line) :
    '\n' ∉ rewriteLine base line := by
  by_cases hc1 : ((trimL line).isEmpty || startsWithL line ['#']) = true
  · rw [rewriteLine_skip hc1]; exact h
  · have hc1f := Bool.eq_false_iff.mpr hc1
    by_cases hc2 : isAbsoluteRef line = true
    · rw [rewriteLine_abs hc1f hc2]; exact h
    · have hc2f := Bool.eq_false_iff.mpr hc2
      cases hres : urlResolve base (trimL line) with
      | none => rw [rewriteLine_unresolved hc1f hc2f hres]; exact h
      | some r =>
        rw [rewriteLine_resolved hc1f hc2f hres]
        exact resolve_no_newline hres (fun hm => h (mem_trimL hm))

/-- The lines of a rewritten manifest are exactly the rewritten lines of the
input manifest. -/
theorem rewrite_lines (m u : Str) :
    splitNL (rewriteHlsManifest m u) = (splitNL m).map (rewriteLine (baseOf u)) := by
  unfold rewriteHlsManifest
  apply splitNL_joinNL
  · intro hmap
    exact splitNL_ne_nil m (List.map_eq_nil_iff.mp hmap)
  · intro l hl
    rcases List.mem_map.mp hl with ⟨l0, hl0, hfl⟩
    rw [← hfl]
    exact rewriteLine_no_nl (mem_splitNL_no_nl m l0 hl0)

/-! ### Helper lemmas shared by claim proofs -/

theorem rstrip_cons_not_ws {c : Char} (cs : Str) (hc : isWs c = false) :
    ∃ t, rstrip (c :: cs) = c :: t := by
  rw [rstrip_cons_eq]
  cases h : rstrip cs with
  | nil => exact ⟨[], by simp [hc]⟩
  | cons d ds => exact ⟨d :: ds, rfl⟩

/-! ### The spec example of the Manifest Rewriter -/

/-- The example input manifest of spec §8. -/
def exManifest : Str := "#EXTM3U\nseg0.ts\nhttps://cdn.x/seg1.ts\n#EXT-X-ENDLIST".data

/-- The example source URL of spec §8. -/
def exSourceUrl : Str := "https://host/path/master.m3u8".data

/-- The expected rewritten manifest of spec §8. -/
def exRewritten : Str :=
  "#EXTM3U\nhttps://host/path/seg0.ts\nhttps://cdn.x/seg1.ts\n#EXT-X-ENDLIST".data

/-! ### Claims about the Manifest Rewriter -/

/-- C4: for every manifest text `m` and every source URL `u`, the output of
`rewriteHlsManifest m u` has exactly the same number of newline-separated
lines as `m`, in the same order (the rewrite is `split`/`map`/`join` and no
rewritten line can contain a newline). -/
theorem claim_C4_line_count (m u : Str) :
    (splitNL (rewriteHlsManifest m u)).length = (splitNL m).length := by
  rw [rewrite_lines, List.length_map]

/-- C5: `rewriteHlsManifest` is idempotent: rewriting an already rewritten
manifest with the same source URL changes nothing.  Blank and `'#'` lines are
stable, unresolvable references are kept verbatim, and every successfully
resolved reference becomes a scheme-carrying URL, which the second pass either
passes through as already absolute or resolves to itself. -/
theorem claim_C5_idempotent (m u : Str) :
    rewriteHlsManifest (rewriteHlsManifest m u) u = rewriteHlsManifest m u := by
  have hcong : (splitNL m).map
      (rewriteLine (baseOf u) ∘ rewriteLine (baseOf u)) =
      (splitNL m).map (rewriteLine (baseOf u)) :=
    List.map_congr_left (fun a _ => rewriteLine_idem (baseOf u) a)
  show joinNL ((splitNL (rewriteHlsManifest m u)).map (rewriteLine (baseOf u))) =
    rewriteHlsManifest m u
  rw [rewrite_lines m u, List.map_map, hcong]
  rfl

/-- C3: in the output of `rewriteHlsManifest`, every line whose trim is empty
and every line beginning with `'#'` is unchanged, and every other line is
either unchanged or replaced by the URL-resolution of its trimmed content
against the base directory URL; on the spec's example, the directives pass
through and `seg0.ts` becomes `https://host/path/seg0.ts`. -/
theorem claim_C3_line_classes :
    (∀ (m u : Str) (i : Nat) (l : Str), (splitNL m)[i]? = some l →
      (((trimL l).isEmpty = true ∨ startsWithL l ['#'] = true) →
        (splitNL (rewriteHlsManifest m u))[i]? = some l) ∧
      ((trimL l).isEmpty = false → startsWithL l ['#'] = false →
        (splitNL (rewriteHlsManifest m u))[i]? = some l ∨
        ∃ r, urlResolve (baseOf u) (trimL l) = some r ∧
          (splitNL (rewriteHlsManifest m u))[i]? = some r)) ∧
    rewriteHlsManifest exManifest exSourceUrl = exRewritten := by
  constructor
  · intro m u i l hi
    have hmap : (splitNL (rewriteHlsManifest m u))[i]? =
        some (rewriteLine (baseOf u) l) := by
      rw [rewrite_lines, List.getElem?_map, hi]
      rfl
    constructor
    · intro hc
      rcases hc with h | h <;> rw [hmap, rewriteLine_skip (by simp [h])]
    · intro h1 h2
      have hc1f : ((trimL l).isEmpty || startsWithL l ['#']) = false := by
        rw [h1, h2]
        rfl
      by_cases habs : isAbsoluteRef l = true
      · exact Or.inl (by rw [hmap, rewriteLine_abs hc1f habs])
      · have habsf := Bool.eq_false_iff.mpr habs
        cases hres : urlResolve (baseOf u) (trimL l) with
        | none => exact Or.inl (by rw [hmap, rewriteLine_unresolved hc1f habsf hres])
        | some r =>
          exact Or.inr ⟨r, rfl,
            by rw [hmap, rewriteLine_resolved hc1f habsf hres]⟩
  · decide

/-- Witness for C3: on the spec's example the first line, the directive
`#EXTM3U`, passes through unchanged. -/
theorem claim_C3_line_classes_witness :
    (splitNL (rewriteHlsManifest exManifest exSourceUrl))[0]? =
      some ("#EXTM3U".data) :=
  (claim_C3_line_classes.1 exManifest exSourceUrl 0 ("#EXTM3U".data)
    (by decide)).1 (Or.inr (by decide))

/-- C10: line classification of `rewriteHlsManifest` uses the untrimmed line:
a line of whitespace followed by `'#'` is treated as a reference (not a
directive) and rewritten by resolving its trimmed content; a reference line's
leading/trailing whitespace is stripped before resolution, the resolved value
replacing the whole line; a line of only whitespace passes through unchanged;
and the manifest rewrite is exactly this per-line map. -/
theorem claim_C10_untrimmed_classification :
    ∀ (u l : Str),
      (trimL l = [] → rewriteLine (baseOf u) l = l) ∧
      (∀ w rest, l = w ++ '#' :: rest → w ≠ [] → (∀ c ∈ w, isWs c = true) →
        startsWithL l ['#'] = false ∧ startsWithL (trimL l) ['#'] = true ∧
        rewriteLine (baseOf u) l =
          (match urlResolve (baseOf u) (trimL l) with
           | some r => r
           | none => l)) ∧
      (∀ r, (trimL l).isEmpty = false → startsWithL l ['#'] = false →
        isAbsoluteRef l = false → urlResolve (baseOf u) (trimL l) = some r →
        rewriteLine (baseOf u) l = r) ∧
      (∀ m, splitNL (rewriteHlsManifest m u) =
        (splitNL m).map (rewriteLine (baseOf u))) := by
  intro u l
  refine ⟨?_, ?_, ?_, fun m => rewrite_lines m u⟩
  · intro h
    exact rewriteLine_skip (by rw [h]; rfl)
  · intro w rest hl hwne hall
    cases w with
    | nil => exact absurd rfl hwne
    | cons wc w2 =>
      subst hl
      have hwc : isWs wc = true := hall wc (List.mem_cons_self _ _)
      have hall2 : ∀ c ∈ w2, isWs c = true :=
        fun c hc => hall c (List.mem_cons_of_mem _ hc)
      have e1 : (wc == '#') = false := ws_beq_false hwc (by decide)
      have e2 : (wc == 'h') = false := ws_beq_false hwc (by decide)
      have e3 : (wc == '/') = false := ws_beq_false hwc (by decide)
      have hsharp : startsWithL ((wc :: w2) ++ '#' :: rest) ['#'] = false := by
        rw [List.cons_append, startsWithL_cons, e1]
        rfl
      have htrim : trimL ((wc :: w2) ++ '#' :: rest) = rstrip ('#' :: rest) := by
        rw [trimL_ws_append hall]
        unfold trimL
        rw [show ('#' :: rest).dropWhile isWs = '#' :: rest by
          simp [List.dropWhile, show isWs '#' = false from by decide]]
      obtain ⟨t, ht⟩ := rstrip_cons_not_ws rest (show isWs '#' = false by decide)
      have htrim2 : trimL ((wc :: w2) ++ '#' :: rest) = '#' :: t := by
        rw [htrim, ht]
      have hc1f : ((trimL ((wc :: w2) ++ '#' :: rest)).isEmpty ||
          startsWithL ((wc :: w2) ++ '#' :: rest) ['#']) = false := by
        rw [htrim2, hsharp]
        rfl
      have habs : isAbsoluteRef ((wc :: w2) ++ '#' :: rest) = false := by
        unfold isAbsoluteRef httpsSlashes httpSlashes protoRel
        rw [List.cons_append, startsWithL_cons, startsWithL_cons, startsWithL_cons,
          e2, e3]
        rfl
      refine ⟨hsharp, by rw [htrim2, startsWithL_cons, startsWithL_nil_right]; rfl, ?_⟩
      cases hres : urlResolve (baseOf u) (trimL ((wc :: w2) ++ '#' :: rest)) with
      | none => exact rewriteLine_unresolved hc1f habs hres
      | some r => exact rewriteLine_resolved hc1f habs hres
  · intro r h1 h2 h3 hres
    exact rewriteLine_resolved (by rw [h1, h2]; rfl) h3 hres

/-- Witness for C10: the line `" #EXTINF"` — whitespace then `'#'` — is
rewritten (not passed through) by resolving its trimmed content against the
base directory of the example source URL. -/
theorem claim_C10_untrimmed_classification_witness :
    rewriteLine (baseOf exSourceUrl) (" #EXTINF".data) =
      "https://host/path/#EXTINF".data :=
  (claim_C10_untrimmed_classification exSourceUrl (" #EXTINF".data)).2.2.1
    ("https://host/path/#EXTINF".data) (by decide) (by decide) (by decide) (by decide)

/-! ### Helper lemmas about the resolver loop -/

theorem resolveTrace_cons (env : Str → FetchResult) (v inst : Str) (rest : List Str) :
    resolveTrace env v (inst :: rest) =
      match tryInstance env v inst with
      | some u => ([inst], some u)
      | none =>
        (inst :: (resolveTrace env v rest).1, (resolveTrace env v rest).2) := rfl

theorem resolveTrace_all_fail (env : Str → FetchResult) (v : Str) :
    ∀ l : List Str, (∀ i ∈ l, tryInstance env v i = none) →
      resolveTrace env v l = (l, none) := by
  intro l
  induction l with
  | nil => intro _; rfl
  | cons i0 rest ih =>
    intro hall
    have h0 : tryInstance env v i0 = none := hall i0 (List.mem_cons_self _ _)
    have hrest := ih (fun i hi => hall i (List.mem_cons_of_mem _ hi))
    simp only [resolveTrace_cons, h0, hrest]

/-! ### Sample environments used by witnesses and counterexamples -/

/-- A sample stream identifier. -/
def sampleId : Str := "dQw4w9WgXcQ".data

/-- A sample absolute stream URL. -/
def sampleHlsUrl : Str := "https://hls.example/live.m3u8".data

/-- A provider response carrying one matching `hls` format descriptor. -/
def infoWithHls : VideoInfo :=
  ⟨some [⟨some HLS_FORMAT_NAME, none, some sampleHlsUrl⟩], none, none⟩

/-- An environment in which every provider answers with `infoWithHls`. -/
def envAllOk : Str → FetchResult :=
  fun _ => FetchResult.response 200 (some infoWithHls)

/-- An environment in which every provider query fails at the network level. -/
def envAllFail : Str → FetchResult := fun _ => FetchResult.networkError

/-- The first configured provider endpoint. -/
def firstInstance : Str := "https://invidious.f5.si".data

/-! ### Claims about the Provider Resolver -/

/-- C1: for every identifier and every ordered configuration of provider
endpoints, if `inst` is the first endpoint whose query yields a usable stream
URL (`pre` are the failing endpoints before it), the resolver queries exactly
`pre ++ [inst]` in order — no endpoint after `inst` — and returns `inst`'s
URL; instantiated at the configured list this is `getHlsUrlFromInvidious`. -/
theorem claim_C1_first_success :
    ∀ (env : Str → FetchResult) (v : Str) (pre post : List Str) (inst u : Str),
      (∀ i ∈ pre, tryInstance env v i = none) →
      tryInstance env v inst = some u →
      resolveTrace env v (pre ++ inst :: post) = (pre ++ [inst], some u) ∧
      (INVIDIOUS_INSTANCES = pre ++ inst :: post →
        getHlsUrlFromInvidious env v = some u) := by
  intro env v pre post inst u hpre hk
  have hmain : resolveTrace env v (pre ++ inst :: post) = (pre ++ [inst], some u) := by
    induction pre with
    | nil => simp only [List.nil_append, resolveTrace_cons, hk]
    | cons i0 pre2 ih =>
      have h0 : tryInstance env v i0 = none := hpre i0 (List.mem_cons_self _ _)
      have hrest := ih (fun i hi => hpre i (List.mem_cons_of_mem _ hi))
      simp only [List.cons_append, resolveTrace_cons, h0, hrest]
  exact ⟨hmain, fun hlist => by
    unfold getHlsUrlFromInvidious
    rw [hlist, hmain]⟩

/-- Witness for C1: with every provider healthy, the resolver queries only the
first instance and returns its URL. -/
theorem claim_C1_first_success_witness :
    resolveTrace envAllOk sampleId ([] ++ firstInstance :: INVIDIOUS_INSTANCES.drop 1) =
      ([] ++ [firstInstance], some sampleHlsUrl) ∧
    getHlsUrlFromInvidious envAllOk sampleId = some sampleHlsUrl :=
  have h := claim_C1_first_success envAllOk sampleId [] (INVIDIOUS_INSTANCES.drop 1)
    firstInstance sampleHlsUrl (fun i hi => absurd hi (List.not_mem_nil i))
    (by decide)
  ⟨h.1, h.2 rfl⟩

/-- C2: every per-endpoint failure mode — network failure, timeout, non-2xx
status, unparseable body, and no usable format in a parsed body — makes the
attempt yield `none`, with identical control flow (the loop proceeds to the
next endpoint); and when every configured endpoint fails the resolver returns
`none` (it is a total function, so no exception escapes). -/
theorem claim_C2_failure_modes :
    (∀ (env : Str → FetchResult) (v inst : Str),
      env (apiUrl inst v) = FetchResult.networkError → tryInstance env v inst = none) ∧
    (∀ (env : Str → FetchResult) (v inst : Str),
      env (apiUrl inst v) = FetchResult.timeout → tryInstance env v inst = none) ∧
    (∀ (env : Str → FetchResult) (v inst : Str) (s : Nat) (b : Option VideoInfo),
      env (apiUrl inst v) = FetchResult.response s b → okStatus s = false →
      tryInstance env v inst = none) ∧
    (∀ (env : Str → FetchResult) (v inst : Str) (s : Nat),
      env (apiUrl inst v) = FetchResult.response s none → tryInstance env v inst = none) ∧
    (∀ (env : Str → FetchResult) (v inst : Str) (s : Nat) (info : VideoInfo),
      env (apiUrl inst v) = FetchResult.response s (some info) →
      truthyStr (extractHlsUrl info) = none → tryInstance env v inst = none) ∧
    (∀ (env : Str → FetchResult) (v inst : Str) (rest : List Str),
      tryInstance env v inst = none →
      resolveTrace env v (inst :: rest) =
        (inst :: (resolveTrace env v rest).1, (resolveTrace env v rest).2)) ∧
    (∀ (env : Str → FetchResult) (v : Str),
      (∀ i ∈ INVIDIOUS_INSTANCES, tryInstance env v i = none) →
      getHlsUrlFromInvidious env v = none) := by
  refine ⟨?_, ?_, ?_, ?_, ?_, ?_, ?_⟩
  · intro env v inst h
    simp [tryInstance, h]
  · intro env v inst h
    simp [tryInstance, h]
  · intro env v inst s b h hok
    simp [tryInstance, h, hok]
  · intro env v inst s h
    by_cases hok : okStatus s = true <;> simp [tryInstance, h, hok]
  · intro env v inst s info h htr
    by_cases hok : okStatus s = true <;> simp [tryInstance, h, hok, htr]
  · intro env v inst rest h
    simp only [resolveTrace_cons, h]
  · intro env v hall
    unfold getHlsUrlFromInvidious
    rw [resolveTrace_all_fail env v INVIDIOUS_INSTANCES hall]

/-- Witness for C2: when every query fails at the network level the resolver
returns `none`. -/
theorem claim_C2_failure_modes_witness :
    getHlsUrlFromInvidious envAllFail sampleId = none :=
  claim_C2_failure_modes.2.2.2.2.2.2 envAllFail sampleId (fun _ _ => rfl)

/-- The format predicate of the code, phrased semantically: container is
`hls`, or the quality label is a non-empty string whose lowercase form
contains `hls`. -/
theorem isHlsFormat_iff (f : Format) :
    isHlsFormat f = true ↔
      (f.container = some HLS_FORMAT_NAME ∨
        ∃ q, f.qualityLabel = some q ∧ q ≠ [] ∧
          containsL (lowerL q) HLS_FORMAT_NAME = true) := by
  unfold isHlsFormat
  cases hq : f.qualityLabel with
  | none => simp [hq]
  | some q =>
    simp only [hq, Bool.or_eq_true, beq_iff_eq, Bool.and_eq_true,
      Bool.not_eq_true', Option.some.injEq]
    constructor
    · rintro (h | ⟨h1, h2⟩)
      · exact Or.inl h
      · exact Or.inr ⟨q, rfl, ne_nil_of_isEmpty_false h1, h2⟩
    · rintro (h | ⟨q2, hq2, hne, hc⟩)
      · exact Or.inl h
      · subst hq2
        exact Or.inr ⟨isEmpty_false_of_ne_nil hne, hc⟩

/-- C7: from a parsed provider response the resolver selects a format
descriptor whose container tag is `hls` or whose lowercased quality label
contains `hls`; when no descriptor of the collection matches, it falls back to
the response's top-level `hlsUrl` field. -/
theorem claim_C7_format_selection :
    ∀ info : VideoInfo,
      (∀ f, (formatsOf info).find? isHlsFormat = some f →
        f ∈ formatsOf info ∧
        (f.container = some HLS_FORMAT_NAME ∨
          ∃ q, f.qualityLabel = some q ∧ q ≠ [] ∧
            containsL (lowerL q) HLS_FORMAT_NAME = true) ∧
        extractHlsUrl info = f.url) ∧
      ((∀ f ∈ formatsOf info,
          ¬(f.container = some HLS_FORMAT_NAME ∨
            ∃ q, f.qualityLabel = some q ∧ q ≠ [] ∧
              containsL (lowerL q) HLS_FORMAT_NAME = true)) →
        extractHlsUrl info = info.hlsUrl) := by
  intro info
  constructor
  · intro f hf
    refine ⟨List.mem_of_find?_eq_some hf, (isHlsFormat_iff f).mp (List.find?_some hf), ?_⟩
    unfold extractHlsUrl
    rw [hf]
  · intro hall
    have hnone : (formatsOf info).find? isHlsFormat = none := by
      rw [List.find?_eq_none]
      intro f hfm hP
      exact hall f hfm ((isHlsFormat_iff f).mp hP)
    unfold extractHlsUrl
    rw [hnone]

/-- A response whose `formatStreams` is the empty array (truthy in JS, so no
descriptor can match) and whose top-level `hlsUrl` is present. -/
def infoEmptyStreams : VideoInfo :=
  ⟨some [], some [⟨some HLS_FORMAT_NAME, none, some sampleHlsUrl⟩], some sampleHlsUrl⟩

/-- Witness for C7: with an empty (but present) `formatStreams` collection no
descriptor matches, and extraction falls back to the top-level `hlsUrl`. -/
theorem claim_C7_format_selection_witness :
    extractHlsUrl infoEmptyStreams = infoEmptyStreams.hlsUrl :=
  (claim_C7_format_selection infoEmptyStreams).2
    (fun f hf => absurd hf (List.not_mem_nil f))

/-- C9: whenever `formatStreams` is present — even as an empty array — the
resolver never consults `adaptiveFormats`: the extraction result is invariant
under changing `adaptiveFormats`, and the fallback to `adaptiveFormats`
happens exactly when `formatStreams` is absent. -/
theorem claim_C9_formatStreams_shadows_adaptive :
    ∀ (fs : List Format) (af af2 : Option (List Format)) (hu : Option Str)
      (afl : List Format),
      extractHlsUrl ⟨some fs, af, hu⟩ = extractHlsUrl ⟨some fs, af2, hu⟩ ∧
      formatsOf ⟨some fs, af, hu⟩ = fs ∧
      formatsOf ⟨none, some afl, hu⟩ = afl :=
  fun _ _ _ _ _ => ⟨rfl, rfl, rfl⟩

/-! ### C6: relative extracted URLs -/

/-- A relative stream URL as a provider might report it. -/
def relativeUrl : Str := "live/playlist.m3u8".data

/-- A provider response whose matching format carries a relative URL. -/
def infoRelative : VideoInfo :=
  ⟨some [⟨some HLS_FORMAT_NAME, none, some relativeUrl⟩], none, none⟩

/-- An environment in which every provider reports the relative URL. -/
def envRelative : Str → FetchResult :=
  fun _ => FetchResult.response 200 (some infoRelative)

/-- Counterexample to C6: the resolver of `src/server.js` returns a relative
extracted URL unchanged — it is not resolved against the endpoint's base URL
(resolution would give `https://invidious.f5.si/live/playlist.m3u8`), and the
result is not absolute (it carries no scheme). -/
theorem claim_C6_counterexample :
    getHlsUrlFromInvidious envRelative sampleId = some relativeUrl ∧
    hasScheme relativeUrl = false ∧
    urlResolve firstInstance relativeUrl =
      some ("https://invidious.f5.si/live/playlist.m3u8".data) ∧
    relativeUrl ≠ "https://invidious.f5.si/live/playlist.m3u8".data := by
  exact ⟨by decide, by decide, by decide, by decide⟩

/-- C6 as amended: only the `src/unnamed/part_000` variant of the resolver
resolves an extracted URL against the endpoint's base URL, and it does so
exactly when the URL does not start with the four characters `http`; the
`src/server.js` resolver returns the extracted URL unchanged.  When that
resolution succeeds its output carries a scheme, hence is absolute. -/
theorem claim_C6_amended :
    ∀ (env : Str → FetchResult) (v inst : Str) (s : Nat) (info : VideoInfo) (u : Str),
      env (apiUrl inst v) = FetchResult.response s (some info) →
      okStatus s = true →
      truthyStr (extractHlsUrl info) = some u →
      startsWithL u httpPre = false →
      tryInstanceResolving env v inst = urlResolve inst u ∧
      (∀ r, urlResolve inst u = some r → hasScheme r = true) := by
  intro env v inst s info u henv hok hu hpre
  constructor
  · simp [tryInstanceResolving, henv, hok, hu, hpre]
  · intro r hr
    exact urlResolve_some_hasScheme hr

/-- Witness for the amended C6: the `part_000` resolver resolves the sample
relative URL against the first instance. -/
theorem claim_C6_amended_witness :
    tryInstanceResolving envRelative sampleId firstInstance =
      urlResolve firstInstance relativeUrl :=
  (claim_C6_amended envRelative sampleId firstInstance 200 infoRelative relativeUrl
    rfl (by decide) (by decide) (by decide)).1

/-! ### C8: `replaceDomain` -/

/-- Constructor form of `parseBase`: a whitespace-free `scheme://host` +
remainder string parses back into its components. -/
theorem parseBase_mk {sch T rest : Str} {c : Char} {pre : Str}
    (hsch : sch = c :: pre) (ha : c.isAlpha = true)
    (hallsch : ∀ x ∈ sch, isSchemeChar x = true)
    (hnws : (sch ++ ':' :: '/' :: '/' :: (T ++ rest)).any isWs = false)
    (hT : ∀ x ∈ T, isAuthChar x = true)
    (hrest : rest = [] ∨ ∃ rc rt, rest = rc :: rt ∧ isAuthChar rc = false) :
    parseBase (sch ++ ':' :: '/' :: '/' :: (T ++ rest)) = some (sch, T, rest) := by
  have hTR : (T ++ rest).takeWhile isAuthChar = T ∧
      (T ++ rest).dropWhile isAuthChar = rest := by
    rcases hrest with h | ⟨rc, rt, hr, hrc⟩
    · subst h
      have := takeWhile_of_all T hT
      simpa using this
    · subst hr
      exact takeWhile_append_of_all T rc rt hT hrc
  unfold parseBase
  rw [if_neg (by rw [hnws]; exact Bool.false_ne_true)]
  rw [schemeSplit_mk ('/' :: '/' :: (T ++ rest)) hsch ha hallsch]
  show (if ('/' : Char) = '/' ∧ ('/' : Char) = '/' then
    some (sch, (T ++ rest).takeWhile isAuthChar, (T ++ rest).dropWhile isAuthChar)
    else none) = some (sch, T, rest)
  rw [if_pos ⟨rfl, rfl⟩, hTR.1, hTR.2]

/-- Counterexample to C8: the code removes the first occurrence of
`https://`/`http://` anywhere in the configured target (the regex
`/https?:\/\//` is unanchored), not only a prefix: with target `bhttp://c`
the resulting host is `bc`, while the claim's prefix-stripping reading
(`claimHostStrip`) would leave the target unchanged. -/
theorem claim_C8_counterexample :
    replaceDomain ("https://a.com/p?q=1".data) ("bhttp://c".data) =
      "https://bc/p?q=1".data ∧
    claimHostStrip ("bhttp://c".data) = "bhttp://c".data ∧
    "https://bc/p?q=1".data ≠
      httpsSlashes ++ claimHostStrip ("bhttp://c".data) ++ "/p?q=1".data := by
  exact ⟨by decide, by decide, by decide⟩

/-- C8 as amended: for every parseable input URL, `replaceDomain` returns
`https://` ++ (the target with the first occurrence of `http://` or
`https://` — anywhere in it — removed) ++ the input's path-and-query, and
when the stripped target is a well-formed host this output parses back with
scheme `https`, that host, and the unchanged path-and-query; every
unparseable input is returned unchanged (and the function is total, so it
never throws). -/
theorem claim_C8_amended :
    (∀ (u t sch host rest : Str), parseBase u = some (sch, host, rest) →
      (∀ c ∈ stripScheme t, isAuthChar c = true ∧ isWs c = false) →
      replaceDomain u t = httpsSlashes ++ stripScheme t ++ rest ∧
      parseBase (replaceDomain u t) = some ("https".data, stripScheme t, rest)) ∧
    (∀ u t : Str, parseBase u = none → replaceDomain u t = u) := by
  constructor
  · intro u t sch host rest hp hT
    have h1 : replaceDomain u t = httpsSlashes ++ stripScheme t ++ rest := by
      unfold replaceDomain
      rw [hp]
    refine ⟨h1, ?_⟩
    rw [h1]
    rcases parseBase_some hp with ⟨hu, hnoWs, _, _, hpathHead, _⟩
    have hrest_ws : ∀ c ∈ rest, isWs c = false := by
      intro c hc
      apply hnoWs
      rw [hu]
      simp [hc]
    have hlit : ∀ x ∈ (("https".data : Str)), isWs x = false := by decide
    have hany : (("https".data) ++ ':' :: '/' :: '/' ::
        (stripScheme t ++ rest)).any isWs = false := by
      apply Bool.eq_false_iff.mpr
      intro habs
      obtain ⟨c, hc, hcw⟩ := List.any_eq_true.mp habs
      rcases List.mem_append.mp hc with h1 | h1
      · exact Bool.false_ne_true ((hlit c h1).symm.trans hcw)
      · rcases List.mem_cons.mp h1 with h2 | h2
        · subst h2; exact absurd hcw (by decide)
        · rcases List.mem_cons.mp h2 with h3 | h3
          · subst h3; exact absurd hcw (by decide)
          · rcases List.mem_cons.mp h3 with h4 | h4
            · subst h4; exact absurd hcw (by decide)
            · rcases List.mem_append.mp h4 with h5 | h5
              · exact Bool.false_ne_true (((hT c h5).2).symm.trans hcw)
              · exact Bool.false_ne_true ((hrest_ws c h5).symm.trans hcw)
    exact parseBase_mk rfl (by decide) (by decide) hany
      (fun x hx => (hT x hx).1) hpathHead
  · intro u t hp
    unfold replaceDomain
    rw [hp]

/-- Witness for the amended C8: the spec's example — substituting
`manifest.googlevideo.com` into
`https://r1---sn-abc.googlevideo.com/videoplayback?id=1`. -/
theorem claim_C8_amended_witness :
    replaceDomain ("https://r1---sn-abc.googlevideo.com/videoplayback?id=1".data)
      ("manifest.googlevideo.com".data) =
      "https://manifest.googlevideo.com/videoplayback?id=1".data := by
  have h := (claim_C8_amended.1 ("https://r1---sn-abc.googlevideo.com/videoplayback?id=1".data)
    ("manifest.googlevideo.com".data) ("https".data)
    ("r1---sn-abc.googlevideo.com".data) ("/videoplayback?id=1".data)
    (by decide) (by decide)).1
  rw [h]
  decide

end TestLive
